import Mathlib

/-!
Verification development for the chatdocs retrieval-augmented prompting core.

Strings are modelled as `List Char` (one entry per code point).  The JS regular
expression splits used by the source are modelled by explicit recursive
scanners:

* `splitWS`   models `String.prototype.split(/\s+/)`   (keeps the empty leading
  and trailing pieces that JS produces);
* `splitParas` models `String.prototype.split(/\n\s*\n/)` (a separator is a
  maximal run starting at a newline, extending through the whitespace run to
  the last newline inside that run — the greedy `\s*` backtracks to leave a
  final `\n`).

The functions `chunkDocument`, `extractKeywords`, `scoreOf`,
`findRelevantChunks`, `createSystemPrompt`, `openaiApiMessages`,
`webllmMessages`, `histAppend`, `openaiGenerateResponse`,
`webllmGenerateResponse` and `parseTopics` are shallow embeddings of the
correspondingly named code in `src/lib/document-processing/document-utils.ts`,
`src/lib/llm/openai-service.ts` and the WebLLM service file.
-/

/-- JS `\s` for the character classes appearing in the source (ASCII part). -/
def isWS (c : Char) : Bool :=
  c = ' ' || c = '\t' || c = '\n' || c = '\r' || c = '\x0b' || c = '\x0c'

/-- Accumulator-style scanner producing the maximal non-whitespace runs. -/
def wordsAux : List Char → List Char → List (List Char)
  | [], acc => if acc.isEmpty then [] else [acc.reverse]
  | c :: cs, acc =>
    if isWS c then
      if acc.isEmpty then wordsAux cs [] else acc.reverse :: wordsAux cs []
    else wordsAux cs (c :: acc)

/-- The words of a string: its maximal non-whitespace runs, in order. -/
def words (s : List Char) : List (List Char) := wordsAux s []

/-- Scanner for JS `split(/\s+/)`: separators are maximal whitespace runs;
empty pieces at the borders are kept, exactly as JS does.  `inGap` records
whether the scanner is inside a separator run (the current piece was already
emitted). -/
def splitWSAux : List Char → List Char → Bool → List (List Char)
  | [], acc, inGap => if inGap then [[]] else [acc.reverse]
  | c :: cs, acc, inGap =>
    if inGap then
      if isWS c then splitWSAux cs [] true else splitWSAux cs [c] false
    else
      if isWS c then acc.reverse :: splitWSAux cs [] true
      else splitWSAux cs (c :: acc) false

/-- JS `s.split(/\s+/)`. -/
def splitWS (s : List Char) : List (List Char) := splitWSAux s [] false

/-- The suffix of `r` strictly after its last newline. -/
def afterLastNL (r : List Char) : List Char :=
  (r.reverse.takeWhile (fun c => c ≠ '\n')).reverse

/-- The prefix of `r` up to and including its last newline. -/
def uptoLastNL (r : List Char) : List Char :=
  (r.reverse.dropWhile (fun c => c ≠ '\n')).reverse

/-- Scanner for JS `split(/\n\s*\n/)`.  A match of the pattern starts at a
newline, runs through the following whitespace, and — because the greedy `\s*`
backtracks to leave a final `\n` — ends at the last newline of the maximal
whitespace run that starts at the opening newline.  The scanner therefore
buffers the whitespace run (`some run`, which always starts with `'\n'`) after
meeting a newline; once the run ends, the run was a separator iff it contained
a second newline, and the part of the run after its last newline starts the
next piece. -/
def splitParasAux : List Char → List Char → Option (List Char) → List (List Char)
  | [], acc, none => [acc.reverse]
  | [], acc, some run =>
    if '\n' ∈ run.tail then [acc.reverse, afterLastNL run] else [acc.reverse ++ run]
  | c :: cs, acc, none =>
    if c = '\n' then splitParasAux cs acc (some ['\n'])
    else splitParasAux cs (c :: acc) none
  | c :: cs, acc, some run =>
    if isWS c then splitParasAux cs acc (some (run ++ [c]))
    else
      if '\n' ∈ run.tail then
        acc.reverse :: splitParasAux cs (c :: (afterLastNL run).reverse) none
      else splitParasAux cs (c :: (run.reverse ++ acc)) none

/-- JS `s.split(/\n\s*\n/)`, as used by `chunkDocument`. -/
def splitParas (s : List Char) : List (List Char) := splitParasAux s [] none

/-- Word-level packing loop of `chunkDocument` (the `paragraph.length > chunkSize`
branch): returns the flushed chunks and the final `currentChunk`. -/
def packWords (size : Nat) : List Char → List (List Char) → List (List Char) × List Char
  | cur, [] => ([], cur)
  | cur, w :: ws =>
    if (cur ++ ' ' :: w).length ≤ size then
      packWords size (if cur.isEmpty then w else cur ++ ' ' :: w) ws
    else
      let r := packWords size w ws
      ((if cur.isEmpty then [] else [cur]) ++ r.1, r.2)

/-- Paragraph loop of `chunkDocument`: returns the flushed chunks and the final
`currentChunk`. -/
def chunkParas (size : Nat) : List Char → List (List Char) → List (List Char) × List Char
  | cur, [] => ([], cur)
  | cur, p :: ps =>
    if size < p.length then
      let r1 := packWords size cur (splitWS p)
      let r2 := chunkParas size r1.2 ps
      (r1.1 ++ r2.1, r2.2)
    else if (cur ++ '\n' :: '\n' :: p).length ≤ size then
      chunkParas size (if cur.isEmpty then p else cur ++ '\n' :: '\n' :: p) ps
    else
      let r := chunkParas size p ps
      ((if cur.isEmpty then [] else [cur]) ++ r.1, r.2)

/-- `chunkDocument` from `document-utils.ts` (default `chunkSize` is 1000). -/
def chunkDocument (content : List Char) (size : Nat) : List (List Char) :=
  if content.length < size then [content]
  else
    let r := chunkParas size [] (splitParas content)
    r.1 ++ (if r.2.isEmpty then [] else [r.2])

/-- Message roles, as in the `ChatMessage` interface of both services. -/
inductive Role
  | user
  | assistant
  | system
deriving DecidableEq

/-- `ChatMessage` from both services. -/
structure Msg where
  role : Role
  content : List Char
deriving DecidableEq

instance : Inhabited Msg := ⟨⟨Role.user, []⟩⟩

/-- `ProcessedDocument` from `document-utils.ts` (`createdAt` is modelled as an
opaque natural timestamp). -/
structure Document where
  id : List Char
  name : List Char
  content : List Char
  extension : List Char
  chunks : List (List Char)
  summary : Option (List Char)
  createdAt : Nat
  source : Option (List Char)
deriving DecidableEq

/-- The stopword list shared verbatim by `extractKeywords` in both services. -/
def stopwords : List (List Char) :=
  (["bir", "ve", "veya", "da", "de", "bu", "şu", "o", "için", "ile", "gibi",
    "kadar", "mi", "mı", "mu", "mü", "ne", "nasıl", "neden", "hangi", "kim",
    "kime", "nerede", "ne zaman", "acaba", "belki", "evet", "hayır", "tamam",
    "değil", "var", "yok"] : List String).map String.toList

/-- The punctuation class removed by `extractKeywords`
(the regex `[.,\/#!$%\^&\*;:{}=\-_`~()]`, written here with code points 123,
125 and 96 for the braces and the backtick). -/
def punctChars : List Char :=
  ['.', ',', '/', '#', '!', '$', '%', '^', '&', '*', ';', ':',
   Char.ofNat 123, Char.ofNat 125, '=', '-', '_', Char.ofNat 96, '~', '(', ')']

/-- `extractKeywords` from both services: lowercase, strip the punctuation
class, split on whitespace, keep words of length > 3 not in the stopword
list.  The result is a list, not a set — duplicates survive. -/
def extractKeywords (text : List Char) : List (List Char) :=
  let ws := splitWS ((text.map Char.toLower).filter (fun c => !punctChars.contains c))
  ws.filter (fun w => w.length > 3 && !stopwords.contains w)

/-- `a` begins `b` (helper for the JS `String.prototype.includes` model). -/
def isPrefOf : List Char → List Char → Bool
  | [], _ => true
  | _ :: _, [] => false
  | a :: as, b :: bs => a = b && isPrefOf as bs

/-- JS `hay.includes(needle)`: `needle` occurs contiguously in `hay`. -/
def hasSub (needle : List Char) : List Char → Bool
  | [] => needle.isEmpty
  | c :: cs => isPrefOf needle (c :: cs) || hasSub needle cs

/-- The per-chunk score computed inside `findRelevantChunks`: the fold over the
keyword list, adding 1 per keyword that is a case-insensitive substring of the
chunk. -/
def scoreOf (chunk : List Char) (keywords : List (List Char)) : Nat :=
  keywords.foldl
    (fun acc kw =>
      acc + (if hasSub (kw.map Char.toLower) (chunk.map Char.toLower) then 1 else 0)) 0

/-- The `{ chunk, score, index }` record built by `findRelevantChunks`. -/
structure Scored where
  chunk : List Char
  score : Nat
  index : Nat
deriving DecidableEq

/-- The JS sort comparator of `findRelevantChunks` as an order: `a` may come
before `b` iff `b.score - a.score < 0`, or scores tie and `a.index - b.index ≤ 0`. -/
def relScored (a b : Scored) : Prop :=
  b.score < a.score ∨ (a.score = b.score ∧ a.index ≤ b.index)

instance : DecidableRel relScored := fun a b => by
  unfold relScored
  infer_instance

instance : IsTotal Scored relScored := by
  constructor
  intro a b
  unfold relScored
  omega

instance : IsTrans Scored relScored := by
  constructor
  intro a b c
  unfold relScored
  omega

/-- `findRelevantChunks` from both services, over the bound document's chunk
list (`document.chunks`).  JS `Array.prototype.sort` is stable and its
comparator here induces the total order `relScored`; the unique stable result
is modelled by the stable `List.insertionSort`. -/
def findRelevantChunks (chunks : List (List Char)) (query : List Char)
    (maxChunks : Nat) : List (List Char) :=
  if chunks.isEmpty then []
  else
    let keywords := extractKeywords query
    if keywords.isEmpty then chunks.take maxChunks
    else
      let scoredChunks := chunks.enum.map (fun p => Scored.mk p.2 (scoreOf p.2 keywords) p.1)
      ((scoredChunks.insertionSort relScored).take maxChunks).map (fun s => s.chunk)

/-- `createSystemPrompt`, identical in both services. -/
def createSystemPrompt (document : Option Document) : List Char :=
  match document with
  | none => "Help the user with their questions.".toList
  | some doc =>
      ("You are a document assistant. Based on the following document, answer the user's questions:\n    \nDocument: \"").toList
      ++ doc.name ++
      ("\"\n\nFollow these rules in your answers:\n1. If the answer to the question is not in the document, honestly say you don't know and don't make up information outside the document.\n2. Only answer based on the information in the document.\n3. In your answers, refer to the information in the document.\n4. If needed, make clear explanations and summaries.\n5. If you can't help with a topic that is not in the document, say so.").toList

/-- The `apiMessages` array assembled by `OpenAIService.generateResponse`:
system message, then (when history is non-empty) `chatHistory.slice(-6)`,
then the user message carrying the context block and the question. -/
def openaiApiMessages (doc : Document) (chatHistory : List Msg)
    (userQuestion : List Char) : List Msg :=
  let context := List.intercalate ('\n' :: '\n' :: [])
    (findRelevantChunks doc.chunks userQuestion 3)
  let systemMessage : Msg := ⟨Role.system, createSystemPrompt (some doc)⟩
  let userContextMessage : Msg :=
    ⟨Role.user, "Document content:\n".toList ++ context
      ++ "\n\nQuestion: ".toList ++ userQuestion⟩
  [systemMessage]
    ++ (if chatHistory.length > 0 then chatHistory.drop (chatHistory.length - 6) else [])
    ++ [userContextMessage]

/-- The `augmentedMessages` array assembled by `WebLLMService.generateResponse`:
`[system, userContext]` first, and then — after those — `chatHistory.slice(-6)`
is pushed when history is non-empty. -/
def webllmMessages (doc : Document) (chatHistory : List Msg)
    (userQuestion : List Char) : List Msg :=
  let context := List.intercalate ('\n' :: '\n' :: [])
    (findRelevantChunks doc.chunks userQuestion 3)
  let baseMessages : List Msg :=
    [⟨Role.system, createSystemPrompt (some doc)⟩,
     ⟨Role.user, "Belge içeriği:\n".toList ++ context ++ "\n\nSorum: ".toList ++ userQuestion⟩]
  baseMessages
    ++ (if chatHistory.length > 0 then chatHistory.drop (chatHistory.length - 6) else [])

/-- History update at the end of a successful `generateResponse` in both
services: push the `(user, assistant)` pair, then `slice(-10)` when the buffer
exceeds 10 entries. -/
def histAppend (chatHistory : List Msg) (q full : List Char) : List Msg :=
  let h := chatHistory ++ [⟨Role.user, q⟩, ⟨Role.assistant, full⟩]
  if h.length > 10 then h.drop (h.length - 10) else h

/-- Error conditions surfaced by `generateResponse`. -/
inductive GenError
  | documentNotSet
  | modelNotLoaded
  | transportFail (msg : List Char)
deriving DecidableEq

instance {e a : Type} [DecidableEq e] [DecidableEq a] : DecidableEq (Except e a) :=
  fun x y =>
    match x, y with
    | Except.error u, Except.error v =>
      if h : u = v then isTrue (by rw [h])
      else isFalse (by intro hc; cases hc; exact h rfl)
    | Except.error _, Except.ok _ => isFalse (by intro hc; cases hc)
    | Except.ok _, Except.error _ => isFalse (by intro hc; cases hc)
    | Except.ok u, Except.ok v =>
      if h : u = v then isTrue (by rw [h])
      else isFalse (by intro hc; cases hc; exact h rfl)

/-- Behaviour of the external transport/model for one generation call: either
the HTTP call / engine call itself fails, or it yields a stream of delta
contents (the `choices[0]?.delta?.content || ""` values, one per parsed line)
followed by an optional mid-stream failure. -/
inductive FetchOutcome
  | httpFail (msg : List Char)
  | stream (deltas : List (List Char)) (err : Option (List Char))
deriving DecidableEq

/-- Stream loop of `OpenAIService.generateResponse`: a delta is appended to
`fullResponse` and forwarded to `onUpdate` only when it is non-empty
(`if (content) { ... }`).  Returns `(fullResponse, onUpdate arguments)`. -/
def openaiDeltasAux (acc : List Char) (calls : List (List Char)) :
    List (List Char) → List Char × List (List Char)
  | [] => (acc, calls)
  | d :: ds =>
    if d.isEmpty then openaiDeltasAux acc calls ds
    else openaiDeltasAux (acc ++ d) (calls ++ [d]) ds

/-- Stream loop of `WebLLMService.generateResponse`: every delta (including an
empty one) is appended and forwarded to `onUpdate`. -/
def webllmDeltasAux (acc : List Char) (calls : List (List Char)) :
    List (List Char) → List Char × List (List Char)
  | [] => (acc, calls)
  | d :: ds => webllmDeltasAux (acc ++ d) (calls ++ [d]) ds

/-- Mutable state of an `OpenAIService` instance (config fields omitted; the
floating-point `temperature` and the `apiKey`/`model` strings only flow into
the request body of the external transport). -/
structure OpenAIState where
  document : Option Document
  chatHistory : List Msg
deriving DecidableEq

/-- Mutable state of a `WebLLMService` instance.  `engineLoaded` models
`engine !== null`. -/
structure WebLLMState where
  isInitialized : Bool
  engineLoaded : Bool
  document : Option Document
  chatHistory : List Msg
deriving DecidableEq

/-- Observable outcome of one `generateResponse` call: the returned value or
thrown error, the service state afterwards, the number of transport/model
invocations issued, the `onUpdate` (onDelta) arguments in order, and the
message sequence submitted to the model (empty when no call was made). -/
structure GenOutcome (σ : Type) where
  result : Except GenError (List Char)
  finalState : σ
  transportCalls : Nat
  onDeltaCalls : List (List Char)
  sentMessages : List Msg

/-- `OpenAIService.generateResponse`: document precondition, message assembly,
one `fetch`, stream accumulation, history append on success; on any thrown
error the state is left as it was. -/
def openaiGenerateResponse (st : OpenAIState) (messages : List Msg)
    (fetch : FetchOutcome) : GenOutcome OpenAIState :=
  match st.document with
  | none => ⟨Except.error GenError.documentNotSet, st, 0, [], []⟩
  | some doc =>
    let userQuestion := (messages.getLastD default).content
    let apiMessages := openaiApiMessages doc st.chatHistory userQuestion
    match fetch with
    | FetchOutcome.httpFail msg =>
        ⟨Except.error (GenError.transportFail msg), st, 1, [], apiMessages⟩
    | FetchOutcome.stream deltas err =>
      let pr := openaiDeltasAux [] [] deltas
      match err with
      | some m => ⟨Except.error (GenError.transportFail m), st, 1, pr.2, apiMessages⟩
      | none =>
          ⟨Except.ok pr.1,
           { st with chatHistory := histAppend st.chatHistory userQuestion pr.1 },
           1, pr.2, apiMessages⟩

/-- The generic error message `WebLLMService.generateResponse` rethrows from
its catch block. -/
def webllmGenericError : List Char := "Yanıt oluşturulurken bir hata oluştu.".toList

/-- `WebLLMService.generateResponse`: model-readiness precondition first, then
the document precondition, then message assembly, one engine call, stream
accumulation, history append on success; any caught error is rethrown as the
generic failure with the state unchanged. -/
def webllmGenerateResponse (st : WebLLMState) (messages : List Msg)
    (fetch : FetchOutcome) : GenOutcome WebLLMState :=
  if !st.isInitialized || !st.engineLoaded then
    ⟨Except.error GenError.modelNotLoaded, st, 0, [], []⟩
  else
    match st.document with
    | none => ⟨Except.error GenError.documentNotSet, st, 0, [], []⟩
    | some doc =>
      let userQuestion := (messages.getLastD default).content
      let augmentedMessages := webllmMessages doc st.chatHistory userQuestion
      match fetch with
      | FetchOutcome.httpFail _ =>
          ⟨Except.error (GenError.transportFail webllmGenericError), st, 1, [],
           augmentedMessages⟩
      | FetchOutcome.stream deltas err =>
        let pr := webllmDeltasAux [] [] deltas
        match err with
        | some _ =>
            ⟨Except.error (GenError.transportFail webllmGenericError), st, 1, pr.2,
             augmentedMessages⟩
        | none =>
            ⟨Except.ok pr.1,
             { st with chatHistory := histAppend st.chatHistory userQuestion pr.1 },
             1, pr.2, augmentedMessages⟩

/-- Iterated `generateResponse` calls against one `OpenAIService` instance,
keeping the resulting state after each call. -/
def openaiRun (st : OpenAIState) : List (List Msg × FetchOutcome) → OpenAIState
  | [] => st
  | (m, f) :: rest => openaiRun (openaiGenerateResponse st m f).finalState rest

/-- JS `String.prototype.trim` (whitespace at both ends removed). -/
def trimL (l : List Char) : List Char :=
  ((l.dropWhile isWS).reverse.dropWhile isWS).reverse

/-- JS `line.replace(/^-\s*/, "")`: strip one leading `-` and the whitespace
after it; identity when the line does not start with `-`. -/
def stripDashWS (l : List Char) : List Char :=
  if l.head? = some '-' then l.tail.dropWhile isWS else l

/-- Response parsing in `extractKeyTopics` (identical in both services): split
on newlines, trim, then `.filter` with the callback
`line && !line.startsWith("-") ? line.replace(/^-\s*/, "") : line`, whose
truthiness decides which (untransformed) lines are kept. -/
def parseTopics (topicsText : List Char) : List (List Char) :=
  ((topicsText.splitOn '\n').map trimL).filter
    (fun line =>
      !(if !line.isEmpty && !(line.head? = some '-' : Bool) then stripDashWS line
        else line).isEmpty)

/-- Modelled from the spec sentence of claim C2 (the claimed behaviour, for
comparison with `parseTopics`): split on newlines, trim each line, strip a
leading `-` marker when present, and do not filter empty lines. -/
def specParseTopics (topicsText : List Char) : List (List Char) :=
  ((topicsText.splitOn '\n').map trimL).map stripDashWS

/-- Modelled from the spec sentence of claim C4 (the claimed score, for
comparison with `scoreOf`): the number of distinct extracted keywords that
occur as a case-insensitive substring of the chunk. -/
def specDistinctScore (chunk : List Char) (query : List Char) : Nat :=
  ((extractKeywords query).dedup.filter
    (fun kw => hasSub (kw.map Char.toLower) (chunk.map Char.toLower))).length

/-- No whitespace occurs in `l` (i.e. `l` is part of a single word). -/
def WSFree (l : List Char) : Prop := ∀ c ∈ l, isWS c = false

/-- A concrete bound document used in the concrete test instances. -/
def exDoc : Document :=
  ⟨"id1".toList, "doc".toList, "alpha beta".toList, "txt".toList,
    ["alpha beta".toList], none, 0, none⟩

/-- A concrete one-pair chat history used in the concrete test instances. -/
def exHist : List Msg :=
  [⟨Role.user, "h1".toList⟩, ⟨Role.assistant, "h2".toList⟩]

/-! ### Lemmas about `words` -/

theorem wordsAux_append_ws (d : Char) (hd : isWS d = true) :
    ∀ (s : List Char) (acc r : List Char),
      wordsAux (s ++ d :: r) acc = wordsAux s acc ++ wordsAux r [] := by
  intro s
  induction s with
  | nil =>
    intro acc r
    by_cases hacc : acc.isEmpty
    · simp [wordsAux, hd, hacc]
    · simp [wordsAux, hd, hacc]
  | cons c cs ih =>
    intro acc r
    by_cases hc : isWS c
    · by_cases hacc : acc.isEmpty
      · simp [wordsAux, hc, hacc, ih]
      · simp [wordsAux, hc, hacc, ih]
    · simp [wordsAux, hc, ih]

theorem words_ws_cons (d : Char) (hd : isWS d = true) (a b : List Char) :
    words (a ++ d :: b) = words a ++ words b := by
  simpa [words, wordsAux] using wordsAux_append_ws d hd a [] b

theorem words_allWS_append (sep b : List Char) (h : ∀ c ∈ sep, isWS c = true) :
    words (sep ++ b) = words b := by
  induction sep with
  | nil => simp
  | cons c cs ih =>
    have hc : isWS c = true := h c (by simp)
    have := ih (fun x hx => h x (by simp [hx]))
    simpa [words, wordsAux, hc] using this

theorem words_split (a sep b : List Char) (hne : sep ≠ [])
    (h : ∀ c ∈ sep, isWS c = true) :
    words (a ++ sep ++ b) = words a ++ words b := by
  match sep, hne with
  | d :: sep', _ =>
    have hd : isWS d = true := h d (by simp)
    have h1 : a ++ (d :: sep') ++ b = a ++ d :: (sep' ++ b) := by simp
    rw [h1, words_ws_cons d hd a (sep' ++ b),
      words_allWS_append sep' b (fun x hx => h x (by simp [hx]))]

theorem words_allWS (sep : List Char) (h : ∀ c ∈ sep, isWS c = true) :
    words sep = [] := by
  have := words_allWS_append sep [] h
  simpa using this

theorem wordsAux_wsFree (w : List Char) (hw : WSFree w) :
    ∀ acc : List Char,
      wordsAux w acc = if (acc.reverse ++ w).isEmpty then [] else [acc.reverse ++ w] := by
  induction w with
  | nil =>
    intro acc
    cases acc <;> simp [wordsAux]
  | cons c cs ih =>
    intro acc
    have hc : isWS c = false := hw c (by simp)
    have ihh := ih (fun x hx => hw x (by simp [hx])) (c :: acc)
    simp only [wordsAux, hc] at ihh ⊢
    simp only [Bool.false_eq_true, if_false]
    rw [ihh]
    simp

theorem words_wsFree (w : List Char) (hw : WSFree w) (hne : w ≠ []) :
    words w = [w] := by
  have := wordsAux_wsFree w hw []
  simp only [words, this, List.reverse_nil, List.nil_append]
  simp [List.isEmpty_iff, hne]

/-! ### Lemmas about `splitWS` -/

theorem splitWSAux_filter (s : List Char) :
    (∀ acc, (splitWSAux s acc false).filter (fun l => !l.isEmpty) = wordsAux s acc) ∧
    (∀ acc, (splitWSAux s acc true).filter (fun l => !l.isEmpty) = wordsAux s []) := by
  induction s with
  | nil =>
    constructor
    · intro acc
      cases acc <;> simp [splitWSAux, wordsAux]
    · intro acc
      simp [splitWSAux, wordsAux]
  | cons c cs ih =>
    constructor
    · intro acc
      by_cases hc : isWS c
      · by_cases hacc : acc.isEmpty
        · have h0 : acc = [] := by simpa [List.isEmpty_iff] using hacc
          simp [splitWSAux, wordsAux, hc, h0, ih.2]
        · have h0 : acc ≠ [] := by simpa [List.isEmpty_iff] using hacc
          have h1 : acc.reverse ≠ [] := by simpa using h0
          simp [splitWSAux, wordsAux, hc, hacc, ih.2, h1, List.isEmpty_iff]
      · simp [splitWSAux, wordsAux, hc, ih.1]
    · intro acc
      by_cases hc : isWS c
      · simp [splitWSAux, wordsAux, hc, ih.2]
      · simp [splitWSAux, wordsAux, hc, ih.1]

theorem splitWS_filter (s : List Char) :
    (splitWS s).filter (fun l => !l.isEmpty) = words s :=
  (splitWSAux_filter s).1 []

theorem splitWSAux_wsFree (s : List Char) :
    ∀ (acc : List Char) (b : Bool), WSFree acc →
      ∀ p ∈ splitWSAux s acc b, WSFree p := by
  induction s with
  | nil =>
    intro acc b hacc p hp
    cases b <;> simp [splitWSAux] at hp
    · subst hp
      intro c hc
      exact hacc c (by simpa using hc)
    · simp [hp, WSFree]
  | cons c cs ih =>
    intro acc b hacc p hp
    cases b
    · by_cases hc : isWS c
      · rw [show splitWSAux (c :: cs) acc false = acc.reverse :: splitWSAux cs [] true from by
          simp [splitWSAux, hc]] at hp
        rcases List.mem_cons.mp hp with h | h
        · subst h
          intro x hx
          exact hacc x (by simpa using hx)
        · exact ih [] true (by simp [WSFree]) p h
      · rw [show splitWSAux (c :: cs) acc false = splitWSAux cs (c :: acc) false from by
          simp [splitWSAux, hc]] at hp
        refine ih (c :: acc) false ?_ p hp
        intro x hx
        rcases List.mem_cons.mp hx with h | h
        · subst h
          simpa using hc
        · exact hacc x h
    · by_cases hc : isWS c
      · rw [show splitWSAux (c :: cs) acc true = splitWSAux cs [] true from by
          simp [splitWSAux, hc]] at hp
        exact ih [] true (by simp [WSFree]) p hp
      · rw [show splitWSAux (c :: cs) acc true = splitWSAux cs [c] false from by
          simp [splitWSAux, hc]] at hp
        refine ih [c] false ?_ p hp
        intro x hx
        have hxc : x = c := by simpa using hx
        subst hxc
        simpa using hc

theorem splitWS_wsFree (s : List Char) : ∀ p ∈ splitWS s, WSFree p :=
  splitWSAux_wsFree s [] false (by simp [WSFree])

/-! ### Lemmas about `splitParas` -/

theorem uptoLastNL_append_afterLastNL (r : List Char) :
    uptoLastNL r ++ afterLastNL r = r := by
  unfold uptoLastNL afterLastNL
  rw [← List.reverse_append, List.takeWhile_append_dropWhile, List.reverse_reverse]

theorem uptoLastNL_ne_nil (r : List Char) (h : '\n' ∈ r) : uptoLastNL r ≠ [] := by
  unfold uptoLastNL
  intro h0
  have h1 : r.reverse.dropWhile (fun c => c ≠ '\n') = [] := by
    have := congrArg List.reverse h0
    simpa using this
  have h2 : r.reverse.takeWhile (fun c => c ≠ '\n') = r.reverse := by
    have := List.takeWhile_append_dropWhile (p := fun c => c ≠ '\n') (l := r.reverse)
    rw [h1] at this
    simpa using this
  have h3 : '\n' ∈ r.reverse := by simpa using h
  rw [← h2] at h3
  have := List.mem_takeWhile_imp h3
  simp at this

theorem afterLastNL_subset (r : List Char) : ∀ c ∈ afterLastNL r, c ∈ r := by
  intro c hc
  unfold afterLastNL at hc
  have h1 : c ∈ r.reverse.takeWhile (fun c => c ≠ '\n') := by simpa using hc
  have h2 := List.takeWhile_subset (p := fun c => c ≠ '\n') (l := r.reverse) h1
  simpa using h2

theorem uptoLastNL_subset (r : List Char) : ∀ c ∈ uptoLastNL r, c ∈ r := by
  intro c hc
  unfold uptoLastNL at hc
  have h1 : c ∈ r.reverse.dropWhile (fun c => c ≠ '\n') := by simpa using hc
  have h2 := List.dropWhile_subset (p := fun c => c ≠ '\n') (l := r.reverse) h1
  simpa using h2

theorem words_nil_eq : words [] = [] := rfl

theorem splitParasAux_words (s : List Char) :
    (∀ acc, ((splitParasAux s acc none).map words).flatten = words (acc.reverse ++ s)) ∧
    (∀ acc run, run ≠ [] → (∀ c ∈ run, isWS c = true) →
      ((splitParasAux s acc (some run)).map words).flatten =
        words (acc.reverse ++ run ++ s)) := by
  induction s with
  | nil =>
    constructor
    · intro acc
      simp [splitParasAux]
    · intro acc run hne hws
      by_cases hnl : '\n' ∈ run.tail
      · have hnl' : '\n' ∈ run := List.mem_of_mem_tail hnl
        have h1 : words (afterLastNL run) = [] :=
          words_allWS _ (fun c hc => hws c (afterLastNL_subset run c hc))
        have h2 : words (acc.reverse ++ run) = words acc.reverse := by
          have := words_split acc.reverse run [] hne hws
          simpa [words_nil_eq] using this
        simp [splitParasAux, hnl, h1, h2]
      · simp [splitParasAux, hnl]
  | cons c cs ih =>
    constructor
    · intro acc
      by_cases hc : c = '\n'
      · subst hc
        rw [show splitParasAux ('\n' :: cs) acc none = splitParasAux cs acc (some ['\n'])
          from by simp [splitParasAux]]
        rw [ih.2 acc ['\n'] (by simp) (by simp [isWS])]
        simp
      · rw [show splitParasAux (c :: cs) acc none = splitParasAux cs (c :: acc) none
          from by simp [splitParasAux, hc]]
        rw [ih.1 (c :: acc)]
        simp
    · intro acc run hne hws
      by_cases hc : isWS c
      · rw [show splitParasAux (c :: cs) acc (some run) =
            splitParasAux cs acc (some (run ++ [c])) from by simp [splitParasAux, hc]]
        rw [ih.2 acc (run ++ [c]) (by simp) (by
          intro x hx
          rcases List.mem_append.mp hx with h | h
          · exact hws x h
          · simp only [List.mem_singleton] at h
            subst h
            exact hc)]
        simp
      · by_cases hnl : '\n' ∈ run.tail
        · have hnl' : '\n' ∈ run := List.mem_of_mem_tail hnl
          have hup := uptoLastNL_ne_nil run hnl'
          rw [show splitParasAux (c :: cs) acc (some run) =
              acc.reverse :: splitParasAux cs (c :: (afterLastNL run).reverse) none
            from by simp [splitParasAux, hc, hnl]]
          simp only [List.map_cons, List.flatten_cons]
          rw [ih.1 (c :: (afterLastNL run).reverse)]
          have hsplit : words (acc.reverse ++ run ++ c :: cs) =
              words acc.reverse ++ words (afterLastNL run ++ c :: cs) := by
            have h1 : acc.reverse ++ run ++ c :: cs =
                acc.reverse ++ uptoLastNL run ++ (afterLastNL run ++ c :: cs) := by
              conv_lhs => rw [← uptoLastNL_append_afterLastNL run]
              simp [List.append_assoc]
            rw [h1]
            exact words_split acc.reverse (uptoLastNL run) (afterLastNL run ++ c :: cs)
              hup (fun x hx => hws x (uptoLastNL_subset run x hx))
          rw [hsplit]
          simp
        · rw [show splitParasAux (c :: cs) acc (some run) =
              splitParasAux cs (c :: (run.reverse ++ acc)) none
            from by simp [splitParasAux, hc, hnl]]
          rw [ih.1 (c :: (run.reverse ++ acc))]
          simp

theorem splitParas_words (s : List Char) :
    ((splitParas s).map words).flatten = words s := by
  simpa using (splitParasAux_words s).1 []

/-! ### Lemmas about `packWords` and `chunkParas` -/

theorem words_wsFree_cases (w : List Char) (hw : WSFree w) :
    words w = List.filter (fun l => !l.isEmpty) [w] := by
  by_cases hne : w = []
  · subst hne
    simp [words_nil_eq]
  · rw [words_wsFree w hw hne]
    simp [List.isEmpty_iff, hne]

theorem packWords_words (size : Nat) (ws : List (List Char)) :
    ∀ cur : List Char, (∀ w ∈ ws, WSFree w) →
      ((packWords size cur ws).1.map words).flatten ++ words (packWords size cur ws).2 =
        words cur ++ ws.filter (fun w => !w.isEmpty) := by
  induction ws with
  | nil =>
    intro cur _
    simp [packWords]
  | cons w ws' ih =>
    intro cur h
    have hw : WSFree w := h w (by simp)
    have hws' : ∀ x ∈ ws', WSFree x := fun x hx => h x (by simp [hx])
    have hfw : List.filter (fun l => !l.isEmpty) (w :: ws') =
        words w ++ List.filter (fun l => !l.isEmpty) ws' := by
      rw [words_wsFree_cases w hw]
      by_cases hwe : w.isEmpty <;> simp [hwe]
    by_cases hfit : (cur ++ ' ' :: w).length ≤ size
    · rw [show packWords size cur (w :: ws') =
          packWords size (if cur.isEmpty then w else cur ++ ' ' :: w) ws' from by
        simp only [packWords]
        rw [if_pos hfit]]
      rw [ih _ hws', hfw]
      by_cases hcur : cur.isEmpty
      · have h0 : cur = [] := by simpa [List.isEmpty_iff] using hcur
        subst h0
        simp [words_nil_eq]
      · rw [if_neg hcur, words_ws_cons ' ' (by simp [isWS]) cur w]
        simp
    · rw [show packWords size cur (w :: ws') =
          ((if cur.isEmpty then [] else [cur]) ++ (packWords size w ws').1,
            (packWords size w ws').2) from by
        simp only [packWords]
        rw [if_neg hfit]]
      dsimp only
      rw [List.map_append, List.flatten_append, List.append_assoc, ih w hws', hfw]
      by_cases hcur : cur.isEmpty
      · have h0 : cur = [] := by simpa [List.isEmpty_iff] using hcur
        subst h0
        simp [words_nil_eq]
      · simp [hcur]

theorem packWords_good (size : Nat) (ws : List (List Char)) :
    ∀ cur : List Char, (∀ w ∈ ws, WSFree w) →
      (cur.length ≤ size ∨ WSFree cur) →
      ((∀ c ∈ (packWords size cur ws).1, c ≠ [] ∧ (c.length ≤ size ∨ WSFree c)) ∧
        ((packWords size cur ws).2.length ≤ size ∨ WSFree (packWords size cur ws).2)) := by
  induction ws with
  | nil =>
    intro cur _ hcur
    constructor
    · intro c hc
      simp [packWords] at hc
    · simpa [packWords] using hcur
  | cons w ws' ih =>
    intro cur h hcur
    have hw : WSFree w := h w (by simp)
    have hws' : ∀ x ∈ ws', WSFree x := fun x hx => h x (by simp [hx])
    by_cases hfit : (cur ++ ' ' :: w).length ≤ size
    · rw [show packWords size cur (w :: ws') =
          packWords size (if cur.isEmpty then w else cur ++ ' ' :: w) ws' from by
        simp only [packWords]
        rw [if_pos hfit]]
      refine ih _ hws' ?_
      by_cases hc0 : cur.isEmpty
      · rw [if_pos hc0]
        exact Or.inr hw
      · rw [if_neg hc0]
        left
        have := hfit
        simp only [List.length_append, List.length_cons] at this ⊢
        omega
    · rw [show packWords size cur (w :: ws') =
          ((if cur.isEmpty then [] else [cur]) ++ (packWords size w ws').1,
            (packWords size w ws').2) from by
        simp only [packWords]
        rw [if_neg hfit]]
      have hrec := ih w hws' (Or.inr hw)
      constructor
      · intro c hc
        dsimp only at hc
        rcases List.mem_append.mp hc with hmem | hmem
        · by_cases hc0 : cur.isEmpty
          · simp [hc0] at hmem
          · have hceq : c = cur := by simpa [hc0] using hmem
            subst hceq
            exact ⟨by simpa [List.isEmpty_iff] using hc0, hcur⟩
        · exact hrec.1 c hmem
      · exact hrec.2

theorem chunkParas_words (size : Nat) (ps : List (List Char)) :
    ∀ cur : List Char,
      ((chunkParas size cur ps).1.map words).flatten ++ words (chunkParas size cur ps).2 =
        words cur ++ (ps.map words).flatten := by
  induction ps with
  | nil =>
    intro cur
    simp [chunkParas]
  | cons p ps' ih =>
    intro cur
    by_cases hlong : size < p.length
    · rw [show chunkParas size cur (p :: ps') =
          ((packWords size cur (splitWS p)).1 ++
              (chunkParas size (packWords size cur (splitWS p)).2 ps').1,
            (chunkParas size (packWords size cur (splitWS p)).2 ps').2) from by
        simp only [chunkParas]
        rw [if_pos hlong]]
      dsimp only
      rw [List.map_append, List.flatten_append, List.append_assoc,
        ih (packWords size cur (splitWS p)).2]
      rw [← List.append_assoc,
        packWords_words size (splitWS p) cur (splitWS_wsFree p),
        splitWS_filter p]
      simp
    · by_cases hfit : (cur ++ '\n' :: '\n' :: p).length ≤ size
      · rw [show chunkParas size cur (p :: ps') =
            chunkParas size (if cur.isEmpty then p else cur ++ '\n' :: '\n' :: p) ps' from by
          simp only [chunkParas]
          rw [if_neg hlong, if_pos hfit]]
        rw [ih _]
        by_cases hc0 : cur.isEmpty
        · have h0 : cur = [] := by simpa [List.isEmpty_iff] using hc0
          subst h0
          simp [words_nil_eq]
        · have hnlp : words ('\n' :: p) = words p :=
            words_allWS_append ['\n'] p (by simp [isWS])
          rw [if_neg hc0, words_ws_cons '\n' (by simp [isWS]) cur ('\n' :: p), hnlp]
          simp
      · rw [show chunkParas size cur (p :: ps') =
            ((if cur.isEmpty then [] else [cur]) ++ (chunkParas size p ps').1,
              (chunkParas size p ps').2) from by
            simp only [chunkParas]
            rw [if_neg hlong, if_neg hfit]]
        dsimp only
        rw [List.map_append, List.flatten_append, List.append_assoc, ih p]
        by_cases hc0 : cur.isEmpty
        · have h0 : cur = [] := by simpa [List.isEmpty_iff] using hc0
          subst h0
          simp [words_nil_eq]
        · simp [hc0]

theorem chunkParas_good (size : Nat) (ps : List (List Char)) :
    ∀ cur : List Char, (cur.length ≤ size ∨ WSFree cur) →
      ((∀ c ∈ (chunkParas size cur ps).1, c ≠ [] ∧ (c.length ≤ size ∨ WSFree c)) ∧
        ((chunkParas size cur ps).2.length ≤ size ∨ WSFree (chunkParas size cur ps).2)) := by
  induction ps with
  | nil =>
    intro cur hcur
    constructor
    · intro c hc
      simp [chunkParas] at hc
    · simpa [chunkParas] using hcur
  | cons p ps' ih =>
    intro cur hcur
    by_cases hlong : size < p.length
    · rw [show chunkParas size cur (p :: ps') =
          ((packWords size cur (splitWS p)).1 ++
              (chunkParas size (packWords size cur (splitWS p)).2 ps').1,
            (chunkParas size (packWords size cur (splitWS p)).2 ps').2) from by
        simp only [chunkParas]
        rw [if_pos hlong]]
      have hpk := packWords_good size (splitWS p) cur (splitWS_wsFree p) hcur
      have hrec := ih (packWords size cur (splitWS p)).2 hpk.2
      constructor
      · intro c hc
        dsimp only at hc
        rcases List.mem_append.mp hc with hmem | hmem
        · exact hpk.1 c hmem
        · exact hrec.1 c hmem
      · exact hrec.2
    · by_cases hfit : (cur ++ '\n' :: '\n' :: p).length ≤ size
      · rw [show chunkParas size cur (p :: ps') =
            chunkParas size (if cur.isEmpty then p else cur ++ '\n' :: '\n' :: p) ps' from by
          simp only [chunkParas]
          rw [if_neg hlong, if_pos hfit]]
        refine ih _ ?_
        left
        by_cases hc0 : cur.isEmpty
        · rw [if_pos hc0]
          simp only [List.length_append, List.length_cons] at hfit
          omega
        · rw [if_neg hc0]
          exact hfit
      · rw [show chunkParas size cur (p :: ps') =
            ((if cur.isEmpty then [] else [cur]) ++ (chunkParas size p ps').1,
              (chunkParas size p ps').2) from by
            simp only [chunkParas]
            rw [if_neg hlong, if_neg hfit]]
        have hrec := ih p (Or.inl (by omega))
        constructor
        · intro c hc
          dsimp only at hc
          rcases List.mem_append.mp hc with hmem | hmem
          · by_cases hc0 : cur.isEmpty
            · simp [hc0] at hmem
            · have hceq : c = cur := by simpa [hc0] using hmem
              subst hceq
              exact ⟨by simpa [List.isEmpty_iff] using hc0, hcur⟩
          · exact hrec.1 c hmem
        · exact hrec.2

/-! ### Claim theorems about `chunkDocument` -/

/-- C5: for every non-empty document content and every `maxChunkSize`,
`chunkDocument` produces chunks whose words, concatenated in order, are
exactly the words of the original content (coverage modulo whitespace
normalization), no chunk is empty, and every chunk is at most `maxChunkSize`
long except when it consists of a single word of the content that alone
exceeds `maxChunkSize`. -/
theorem chunkDocument_coverage_nonempty_bounded (content : List Char) (size : Nat)
    (h : content ≠ []) :
    ((chunkDocument content size).map words).flatten = words content ∧
    (∀ c ∈ chunkDocument content size, c ≠ []) ∧
    (∀ c ∈ chunkDocument content size,
      c.length ≤ size ∨ (c ∈ words content ∧ size < c.length)) := by
  by_cases hlt : content.length < size
  · rw [show chunkDocument content size = [content] from by simp [chunkDocument, hlt]]
    refine ⟨by simp, ?_, ?_⟩
    · intro c hc
      simp only [List.mem_singleton] at hc
      subst hc
      exact h
    · intro c hc
      simp only [List.mem_singleton] at hc
      subst hc
      left
      omega
  · have hstep : chunkDocument content size =
        (chunkParas size [] (splitParas content)).1 ++
          (if (chunkParas size [] (splitParas content)).2.isEmpty then []
            else [(chunkParas size [] (splitParas content)).2]) := by
      simp only [chunkDocument]
      rw [if_neg hlt]
    have hcov := chunkParas_words size (splitParas content) []
    rw [splitParas_words content] at hcov
    have hgood := chunkParas_good size (splitParas content) [] (Or.inl (by simp))
    have hcov' : (((chunkParas size [] (splitParas content)).1.map words).flatten
        ++ words (chunkParas size [] (splitParas content)).2) = words content := by
      simpa [words_nil_eq] using hcov
    have hfl : ((chunkDocument content size).map words).flatten = words content := by
      rw [hstep]
      by_cases hce : (chunkParas size [] (splitParas content)).2.isEmpty
      · have h0 : (chunkParas size [] (splitParas content)).2 = [] := by
          simpa [List.isEmpty_iff] using hce
        rw [if_pos hce]
        rw [h0, words_nil_eq, List.append_nil] at hcov'
        simpa using hcov'
      · rw [if_neg hce]
        rw [List.map_append, List.flatten_append]
        simpa using hcov'
    have hall : ∀ c ∈ chunkDocument content size,
        c ≠ [] ∧ (c.length ≤ size ∨ WSFree c) := by
      intro c hc
      rw [hstep] at hc
      rcases List.mem_append.mp hc with hmem | hmem
      · exact hgood.1 c hmem
      · by_cases hce : (chunkParas size [] (splitParas content)).2.isEmpty
        · rw [if_pos hce] at hmem
          simp at hmem
        · rw [if_neg hce] at hmem
          simp only [List.mem_singleton] at hmem
          subst hmem
          exact ⟨by simpa [List.isEmpty_iff] using hce, hgood.2⟩
    refine ⟨hfl, fun c hc => (hall c hc).1, ?_⟩
    intro c hc
    rcases (hall c hc).2 with hle | hfree
    · exact Or.inl hle
    · by_cases hle : c.length ≤ size
      · exact Or.inl hle
      · right
        refine ⟨?_, by omega⟩
        rw [← hfl]
        refine List.mem_flatten.mpr ⟨words c, List.mem_map_of_mem words hc, ?_⟩
        rw [words_wsFree c hfree (hall c hc).1]
        simp

/-- C5 witness: the chunking of `"ab"` with `maxChunkSize = 1` satisfies the
three guarantees (its single chunk is the oversized word itself). -/
theorem chunkDocument_coverage_nonempty_bounded_witness :
    ("ab".toList ≠ []) ∧
    ((((chunkDocument "ab".toList 1).map words).flatten = words "ab".toList) ∧
      (∀ c ∈ chunkDocument "ab".toList 1, c ≠ []) ∧
      (∀ c ∈ chunkDocument "ab".toList 1,
        c.length ≤ 1 ∨ (c ∈ words "ab".toList ∧ 1 < c.length))) :=
  ⟨by decide, chunkDocument_coverage_nonempty_bounded "ab".toList 1 (by decide)⟩

/-- C10: every text strictly shorter than `maxChunkSize` — the empty string
included — is returned verbatim as a single chunk, so `chunkDocument ""`
yields the single empty chunk `[""]`. -/
theorem chunkDocument_small_verbatim :
    (∀ (content : List Char) (size : Nat), content.length < size →
      chunkDocument content size = [content]) ∧
    chunkDocument [] 1000 = [[]] := by
  constructor
  · intro content size h
    simp [chunkDocument, h]
  · rfl

/-- C10 witness: `"hi"` with `maxChunkSize = 1000` comes back as one verbatim
chunk. -/
theorem chunkDocument_small_verbatim_witness :
    ("hi".toList.length < 1000) ∧ chunkDocument "hi".toList 1000 = ["hi".toList] :=
  ⟨by decide, chunkDocument_small_verbatim.1 "hi".toList 1000 (by decide)⟩

/-! ### Claim theorems about `extractKeyTopics` response parsing -/

/-- C2 counterexample: on the response `"- Alpha\n\nBeta"` the code keeps the
`-` marker and drops the empty line, while the claimed parse strips the marker
and keeps the empty line — the two disagree. -/
theorem parseTopics_counterexample :
    parseTopics "- Alpha\n\nBeta".toList = ["- Alpha".toList, "Beta".toList] ∧
    specParseTopics "- Alpha\n\nBeta".toList = ["Alpha".toList, [], "Beta".toList] ∧
    parseTopics "- Alpha\n\nBeta".toList ≠ specParseTopics "- Alpha\n\nBeta".toList :=
  ⟨by decide, by decide, by decide⟩

/-- C2 amended: `extractKeyTopics` parses the response by splitting on
newlines and trimming each line, then filters out the lines that are empty
after trimming; a leading `-` list marker is never stripped (the stripping
expression sits inside a `.filter` callback, so its value is only used as a
truthiness test). -/
theorem parseTopics_eq_trim_filter_empty (t : List Char) :
    parseTopics t = ((t.splitOn '\n').map trimL).filter (fun l => !l.isEmpty) := by
  unfold parseTopics
  apply List.filter_congr
  intro line _
  by_cases h0 : line.isEmpty
  · have h1 : line = [] := by simpa [List.isEmpty_iff] using h0
    subst h1
    simp [stripDashWS]
  · by_cases hd : line.head? = some '-'
    · simp [h0, hd]
    · have hid : stripDashWS line = line := by simp [stripDashWS, hd]
      simp [h0, hd, hid]

/-! ### Claim theorems about the relevance score -/

theorem scoreOf_foldl_acc (chunk : List Char) (keywords : List (List Char)) :
    ∀ acc : Nat,
      keywords.foldl
        (fun acc kw =>
          acc + (if hasSub (kw.map Char.toLower) (chunk.map Char.toLower) then 1 else 0))
        acc =
      acc + (keywords.filter
        (fun kw => hasSub (kw.map Char.toLower) (chunk.map Char.toLower))).length := by
  induction keywords with
  | nil => intro acc; simp
  | cons kw kws ih =>
    intro acc
    by_cases hkw : hasSub (kw.map Char.toLower) (chunk.map Char.toLower)
    · simp only [List.foldl_cons, ih, List.filter_cons, hkw]
      simp
      omega
    · simp only [List.foldl_cons, ih, List.filter_cons]
      simp [hkw]

/-- C4 counterexample: for the chunk `"apple pie"` and the query
`"apple apple"` the computed score is 2 (each entry of the keyword list
contributes), while the claimed count over the distinct keyword set is 1. -/
theorem scoreOf_distinct_counterexample :
    scoreOf "apple pie".toList (extractKeywords "apple apple".toList) = 2 ∧
    specDistinctScore "apple pie".toList "apple apple".toList = 1 ∧
    scoreOf "apple pie".toList (extractKeywords "apple apple".toList) ≠
      specDistinctScore "apple pie".toList "apple apple".toList :=
  ⟨by decide, by decide, by decide⟩

/-- C4 amended: a chunk's score equals the number of entries of the extracted
keyword list (duplicates kept — a keyword occurring twice in the query
contributes twice) that occur as a case-insensitive substring of the chunk;
multiple occurrences inside the chunk still count once per keyword entry. -/
theorem scoreOf_counts_keyword_list_entries (chunk query : List Char) :
    scoreOf chunk (extractKeywords query) =
      ((extractKeywords query).filter
        (fun kw => hasSub (kw.map Char.toLower) (chunk.map Char.toLower))).length := by
  unfold scoreOf
  simpa using scoreOf_foldl_acc chunk (extractKeywords query) 0

/-! ### Claim theorems about `findRelevantChunks` -/

/-- C3: whenever the query yields a non-empty keyword list, `findRelevantChunks`
returns the scored chunks arranged in an order that is a permutation of the
scored input sorted by descending score with ties broken by ascending original
index, truncated to the first `maxChunks` entries; and on the chunks
`["apple banana", "apple", "banana apple"]` with query `"apple"` the returned
order is the original one. -/
theorem findRelevantChunks_sorted_truncated :
    (∀ (chunks : List (List Char)) (query : List Char) (maxChunks : Nat),
      extractKeywords query ≠ [] →
      ∃ sorted : List Scored,
        sorted.Perm (chunks.enum.map (fun p =>
          Scored.mk p.2 (scoreOf p.2 (extractKeywords query)) p.1)) ∧
        sorted.Pairwise relScored ∧
        findRelevantChunks chunks query maxChunks =
          (sorted.take maxChunks).map (fun s => s.chunk)) ∧
    findRelevantChunks
        ["apple banana".toList, "apple".toList, "banana apple".toList]
        "apple".toList 3 =
      ["apple banana".toList, "apple".toList, "banana apple".toList] := by
  constructor
  · intro chunks query maxChunks hkw
    by_cases hch : chunks.isEmpty
    · have h0 : chunks = [] := by simpa [List.isEmpty_iff] using hch
      subst h0
      exact ⟨[], by simp, by simp, by simp [findRelevantChunks]⟩
    · refine ⟨(chunks.enum.map (fun p =>
          Scored.mk p.2 (scoreOf p.2 (extractKeywords query)) p.1)).insertionSort relScored,
        List.perm_insertionSort relScored _, List.sorted_insertionSort relScored _, ?_⟩
      simp only [findRelevantChunks]
      rw [if_neg (by simpa using hch),
        if_neg (by simpa [List.isEmpty_iff] using hkw)]
  · decide

/-- C3 witness: the general part instantiated on a concrete chunk list and the
query `"apple"`, whose keyword list is non-empty. -/
theorem findRelevantChunks_sorted_truncated_witness :
    (extractKeywords "apple".toList ≠ []) ∧
    (∃ sorted : List Scored,
      sorted.Perm (["pear tart".toList].enum.map (fun p =>
        Scored.mk p.2 (scoreOf p.2 (extractKeywords "apple".toList)) p.1)) ∧
      sorted.Pairwise relScored ∧
      findRelevantChunks ["pear tart".toList] "apple".toList 3 =
        (sorted.take 3).map (fun s => s.chunk)) :=
  ⟨by decide,
    findRelevantChunks_sorted_truncated.1 ["pear tart".toList] "apple".toList 3 (by decide)⟩

/-! ### Claim theorems about prompt assembly (message order) -/

set_option maxRecDepth 4000 in
/-- C1 counterexample: a WebLLM generation with one prior exchange submits
`[system, new user message, history…]` — the history entries come after the
new user message, not between it and the system message, and in particular the
last submitted message is not the new user message. -/
theorem webllm_history_after_user_counterexample :
    (webllmGenerateResponse ⟨true, true, some exDoc, exHist⟩ [⟨Role.user, "q".toList⟩]
        (FetchOutcome.stream [] none)).sentMessages =
      [⟨Role.system, createSystemPrompt (some exDoc)⟩,
       ⟨Role.user, "Belge içeriği:\nalpha beta\n\nSorum: q".toList⟩] ++ exHist ∧
    [⟨Role.system, createSystemPrompt (some exDoc)⟩,
        ⟨Role.user, "Belge içeriği:\nalpha beta\n\nSorum: q".toList⟩] ++ exHist ≠
      [⟨Role.system, createSystemPrompt (some exDoc)⟩] ++ exHist ++
        [⟨Role.user, "Belge içeriği:\nalpha beta\n\nSorum: q".toList⟩] :=
  ⟨by decide, by decide⟩

/-- C1 amended: the OpenAI backend submits `[system] ++ (last 6 history
entries, in original order) ++ [new user message]`, exactly as the claim
states; the WebLLM backend instead appends the same history window after the
new user message, i.e. submits `[system, new user message] ++ (last 6 history
entries)`.  The window is `chatHistory.slice(-6)`: at most 6 entries and a
suffix (hence chronological). -/
theorem messages_history_placement (doc : Document) (hist : List Msg) (q : List Char) :
    openaiApiMessages doc hist q =
      [⟨Role.system, createSystemPrompt (some doc)⟩] ++ hist.drop (hist.length - 6) ++
        [⟨Role.user, "Document content:\n".toList ++
          List.intercalate ('\n' :: '\n' :: []) (findRelevantChunks doc.chunks q 3) ++
          "\n\nQuestion: ".toList ++ q⟩] ∧
    webllmMessages doc hist q =
      [⟨Role.system, createSystemPrompt (some doc)⟩,
       ⟨Role.user, "Belge içeriği:\n".toList ++
          List.intercalate ('\n' :: '\n' :: []) (findRelevantChunks doc.chunks q 3) ++
          "\n\nSorum: ".toList ++ q⟩] ++ hist.drop (hist.length - 6) ∧
    (hist.drop (hist.length - 6)).length ≤ 6 ∧
    hist.drop (hist.length - 6) <:+ hist := by
  refine ⟨?_, ?_, ?_, List.drop_suffix _ _⟩
  · by_cases hlen : hist.length > 0
    · simp only [openaiApiMessages]
      rw [if_pos hlen]
    · have h0 : hist = [] := by
        cases hist with
        | nil => rfl
        | cons a l => simp at hlen
      subst h0
      simp [openaiApiMessages]
  · by_cases hlen : hist.length > 0
    · simp only [webllmMessages]
      rw [if_pos hlen]
    · have h0 : hist = [] := by
        cases hist with
        | nil => rfl
        | cons a l => simp at hlen
      subst h0
      simp [webllmMessages]
  · rw [List.length_drop]
    omega

/-! ### Claim theorems about `generateResponse` -/

theorem openaiDeltasAux_flatten (ds : List (List Char)) :
    ∀ (acc : List Char) (calls : List (List Char)), acc = calls.flatten →
      (openaiDeltasAux acc calls ds).1 = (openaiDeltasAux acc calls ds).2.flatten := by
  induction ds with
  | nil =>
    intro acc calls h
    simpa [openaiDeltasAux] using h
  | cons d ds' ih =>
    intro acc calls h
    by_cases hd : d.isEmpty
    · rw [show openaiDeltasAux acc calls (d :: ds') = openaiDeltasAux acc calls ds' from by
        simp [openaiDeltasAux, hd]]
      exact ih acc calls h
    · rw [show openaiDeltasAux acc calls (d :: ds') =
          openaiDeltasAux (acc ++ d) (calls ++ [d]) ds' from by simp [openaiDeltasAux, hd]]
      exact ih (acc ++ d) (calls ++ [d]) (by simp [h])

theorem webllmDeltasAux_flatten (ds : List (List Char)) :
    ∀ (acc : List Char) (calls : List (List Char)), acc = calls.flatten →
      (webllmDeltasAux acc calls ds).1 = (webllmDeltasAux acc calls ds).2.flatten := by
  induction ds with
  | nil =>
    intro acc calls h
    simpa [webllmDeltasAux] using h
  | cons d ds' ih =>
    intro acc calls h
    rw [show webllmDeltasAux acc calls (d :: ds') =
        webllmDeltasAux (acc ++ d) (calls ++ [d]) ds' from by simp [webllmDeltasAux]]
    exact ih (acc ++ d) (calls ++ [d]) (by simp [h])

theorem histAppend_length_le (hist : List Msg) (q full : List Char) :
    (histAppend hist q full).length ≤ 10 := by
  unfold histAppend
  by_cases hlen : (hist ++ [Msg.mk Role.user q, Msg.mk Role.assistant full]).length > 10
  · rw [if_pos hlen, List.length_drop]
    omega
  · rw [if_neg hlen]
    omega

/-- C8: for every call that completes successfully (on either backend), the
returned string is the concatenation, in order, of exactly the fragments
passed to `onUpdate`; and the stream `["Hel", "lo, ", "world"]` produces
exactly those three `onUpdate` arguments and the return value
`"Hello, world"`, on both backends. -/
theorem streaming_accumulation :
    (∀ (st : OpenAIState) (m : List Msg) (f : FetchOutcome) (full : List Char),
      (openaiGenerateResponse st m f).result = Except.ok full →
      full = (openaiGenerateResponse st m f).onDeltaCalls.flatten) ∧
    (∀ (st : WebLLMState) (m : List Msg) (f : FetchOutcome) (full : List Char),
      (webllmGenerateResponse st m f).result = Except.ok full →
      full = (webllmGenerateResponse st m f).onDeltaCalls.flatten) ∧
    ((openaiGenerateResponse ⟨some exDoc, []⟩ [⟨Role.user, "q".toList⟩]
        (FetchOutcome.stream ["Hel".toList, "lo, ".toList, "world".toList] none)).onDeltaCalls =
          ["Hel".toList, "lo, ".toList, "world".toList] ∧
      (openaiGenerateResponse ⟨some exDoc, []⟩ [⟨Role.user, "q".toList⟩]
        (FetchOutcome.stream ["Hel".toList, "lo, ".toList, "world".toList] none)).result =
          Except.ok "Hello, world".toList) ∧
    ((webllmGenerateResponse ⟨true, true, some exDoc, []⟩ [⟨Role.user, "q".toList⟩]
        (FetchOutcome.stream ["Hel".toList, "lo, ".toList, "world".toList] none)).onDeltaCalls =
          ["Hel".toList, "lo, ".toList, "world".toList] ∧
      (webllmGenerateResponse ⟨true, true, some exDoc, []⟩ [⟨Role.user, "q".toList⟩]
        (FetchOutcome.stream ["Hel".toList, "lo, ".toList, "world".toList] none)).result =
          Except.ok "Hello, world".toList) := by
  refine ⟨?_, ?_, ⟨?_, ?_⟩, ?_, ?_⟩
  · intro st m f full h
    cases hdoc : st.document with
    | none => simp [openaiGenerateResponse, hdoc] at h
    | some doc =>
      cases f with
      | httpFail msg => simp [openaiGenerateResponse, hdoc] at h
      | stream deltas err =>
        cases err with
        | some e => simp [openaiGenerateResponse, hdoc] at h
        | none =>
          have hres : (openaiGenerateResponse st m (FetchOutcome.stream deltas none)).result =
              Except.ok (openaiDeltasAux [] [] deltas).1 := by
            simp [openaiGenerateResponse, hdoc]
          rw [hres] at h
          have hfull : full = (openaiDeltasAux [] [] deltas).1 := by
            simpa using h.symm
          subst hfull
      
          have hcalls : (openaiGenerateResponse st m (FetchOutcome.stream deltas none)).onDeltaCalls =
              (openaiDeltasAux [] [] deltas).2 := by
            simp [openaiGenerateResponse, hdoc]
          rw [hcalls]
          exact openaiDeltasAux_flatten deltas [] [] rfl
  · intro st m f full h
    by_cases hinit : (!st.isInitialized || !st.engineLoaded) = true
    · simp [webllmGenerateResponse, hinit] at h
    · cases hdoc : st.document with
      | none => simp [webllmGenerateResponse, hinit, hdoc] at h
      | some doc =>
        cases f with
        | httpFail msg => simp [webllmGenerateResponse, hinit, hdoc] at h
        | stream deltas err =>
          cases err with
          | some e => simp [webllmGenerateResponse, hinit, hdoc] at h
          | none =>
            have hres : (webllmGenerateResponse st m (FetchOutcome.stream deltas none)).result =
                Except.ok (webllmDeltasAux [] [] deltas).1 := by
              simp [webllmGenerateResponse, hinit, hdoc]
            rw [hres] at h
            have hfull : full = (webllmDeltasAux [] [] deltas).1 := by
              simpa using h.symm
            subst hfull
            have hcalls : (webllmGenerateResponse st m (FetchOutcome.stream deltas none)).onDeltaCalls =
                (webllmDeltasAux [] [] deltas).2 := by
              simp [webllmGenerateResponse, hinit, hdoc]
            rw [hcalls]
            exact webllmDeltasAux_flatten deltas [] [] rfl
  · decide
  · decide
  · decide
  · decide

/-- C8 witness: the general accumulation statement applied to a concrete
successful OpenAI call. -/
theorem streaming_accumulation_witness :
    ((openaiGenerateResponse ⟨some exDoc, []⟩ [⟨Role.user, "q".toList⟩]
        (FetchOutcome.stream ["ab".toList] none)).result = Except.ok "ab".toList) ∧
    "ab".toList = (openaiGenerateResponse ⟨some exDoc, []⟩ [⟨Role.user, "q".toList⟩]
        (FetchOutcome.stream ["ab".toList] none)).onDeltaCalls.flatten :=
  ⟨by decide,
    streaming_accumulation.1 ⟨some exDoc, []⟩ [⟨Role.user, "q".toList⟩]
      (FetchOutcome.stream ["ab".toList] none) "ab".toList (by decide)⟩

/-- C6: after every successfully completed `generateResponse` call (on either
backend) the history buffer holds at most 10 entries, and running the six
exchanges `(q1,r1) … (q6,r6)` against a fresh OpenAI session leaves exactly
the 10 entries of the five most recent pairs — the oldest pair `(q1,r1)` has
been evicted. -/
theorem history_bounded_and_evicts_oldest :
    (∀ (st : OpenAIState) (m : List Msg) (f : FetchOutcome) (full : List Char),
      (openaiGenerateResponse st m f).result = Except.ok full →
      (openaiGenerateResponse st m f).finalState.chatHistory.length ≤ 10) ∧
    (∀ (st : WebLLMState) (m : List Msg) (f : FetchOutcome) (full : List Char),
      (webllmGenerateResponse st m f).result = Except.ok full →
      (webllmGenerateResponse st m f).finalState.chatHistory.length ≤ 10) ∧
    openaiRun ⟨some exDoc, []⟩
        ([("q1", "r1"), ("q2", "r2"), ("q3", "r3"), ("q4", "r4"), ("q5", "r5"),
          ("q6", "r6")].map
          (fun p => ([⟨Role.user, p.1.toList⟩], FetchOutcome.stream [p.2.toList] none))) =
      ⟨some exDoc,
        [⟨Role.user, "q2".toList⟩, ⟨Role.assistant, "r2".toList⟩,
         ⟨Role.user, "q3".toList⟩, ⟨Role.assistant, "r3".toList⟩,
         ⟨Role.user, "q4".toList⟩, ⟨Role.assistant, "r4".toList⟩,
         ⟨Role.user, "q5".toList⟩, ⟨Role.assistant, "r5".toList⟩,
         ⟨Role.user, "q6".toList⟩, ⟨Role.assistant, "r6".toList⟩]⟩ := by
  refine ⟨?_, ?_, by decide⟩
  · intro st m f full h
    cases hdoc : st.document with
    | none => simp [openaiGenerateResponse, hdoc] at h
    | some doc =>
      cases f with
      | httpFail msg => simp [openaiGenerateResponse, hdoc] at h
      | stream deltas err =>
        cases err with
        | some e => simp [openaiGenerateResponse, hdoc] at h
        | none =>
          simp only [openaiGenerateResponse, hdoc]
          exact histAppend_length_le _ _ _
  · intro st m f full h
    by_cases hinit : (!st.isInitialized || !st.engineLoaded) = true
    · simp [webllmGenerateResponse, hinit] at h
    · cases hdoc : st.document with
      | none => simp [webllmGenerateResponse, hinit, hdoc] at h
      | some doc =>
        cases f with
        | httpFail msg => simp [webllmGenerateResponse, hinit, hdoc] at h
        | stream deltas err =>
          cases err with
          | some e => simp [webllmGenerateResponse, hinit, hdoc] at h
          | none =>
            simp only [webllmGenerateResponse, hinit, hdoc]
            simp only [Bool.false_eq_true, if_false]
            exact histAppend_length_le _ _ _

/-- C6 witness: the bound applied to one concrete successful call. -/
theorem history_bounded_and_evicts_oldest_witness :
    ((openaiGenerateResponse ⟨some exDoc, []⟩ [⟨Role.user, "q".toList⟩]
        (FetchOutcome.stream ["r".toList] none)).result = Except.ok "r".toList) ∧
    (openaiGenerateResponse ⟨some exDoc, []⟩ [⟨Role.user, "q".toList⟩]
        (FetchOutcome.stream ["r".toList] none)).finalState.chatHistory.length ≤ 10 :=
  ⟨by decide,
    history_bounded_and_evicts_oldest.1 ⟨some exDoc, []⟩ [⟨Role.user, "q".toList⟩]
      (FetchOutcome.stream ["r".toList] none) "r".toList (by decide)⟩

/-- C7 counterexample: on a fresh WebLLM backend (uninitialized, no document
bound) `generateResponse` fails with the "model not loaded" condition, not
with "document not set" as the claim states for every backend instance
without a bound document. -/
theorem webllm_uninitialized_error_counterexample :
    (webllmGenerateResponse ⟨false, false, none, []⟩ [] (FetchOutcome.stream [] none)).result =
      Except.error GenError.modelNotLoaded ∧
    GenError.modelNotLoaded ≠ GenError.documentNotSet :=
  ⟨by decide, by decide⟩

/-- C7 amended: a `generateResponse` call without a bound document fails fast
with zero transport/model invocations and an unchanged state on both backends;
the failure condition is "document not set", except that the local (WebLLM)
backend checks model readiness first, so when it is also uninitialized the
earlier "model not loaded" condition fires instead. -/
theorem generate_without_document_fails_fast :
    (∀ (st : OpenAIState) (m : List Msg) (f : FetchOutcome), st.document = none →
      openaiGenerateResponse st m f =
        ⟨Except.error GenError.documentNotSet, st, 0, [], []⟩) ∧
    (∀ (st : WebLLMState) (m : List Msg) (f : FetchOutcome), st.document = none →
      (webllmGenerateResponse st m f).transportCalls = 0 ∧
      (webllmGenerateResponse st m f).finalState = st ∧
      (st.isInitialized = true → st.engineLoaded = true →
        webllmGenerateResponse st m f =
          ⟨Except.error GenError.documentNotSet, st, 0, [], []⟩)) := by
  constructor
  · intro st m f hdoc
    simp [openaiGenerateResponse, hdoc]
  · intro st m f hdoc
    by_cases hinit : (!st.isInitialized || !st.engineLoaded) = true
    · refine ⟨by simp [webllmGenerateResponse, hinit], by simp [webllmGenerateResponse, hinit], ?_⟩
      intro h1 h2
      rw [h1, h2] at hinit
      simp at hinit
    · refine ⟨by simp [webllmGenerateResponse, hinit, hdoc],
        by simp [webllmGenerateResponse, hinit, hdoc], ?_⟩
      intro _ _
      simp [webllmGenerateResponse, hinit, hdoc]

/-- C7 amended witness: the OpenAI part applied to a fresh unbound service. -/
theorem generate_without_document_fails_fast_witness :
    ((⟨none, []⟩ : OpenAIState).document = none) ∧
    openaiGenerateResponse ⟨none, []⟩ [] (FetchOutcome.stream [] none) =
      ⟨Except.error GenError.documentNotSet, ⟨none, []⟩, 0, [], []⟩ :=
  ⟨rfl, generate_without_document_fails_fast.1 ⟨none, []⟩ [] (FetchOutcome.stream [] none) rfl⟩

/-- C9: whenever `generateResponse` throws (on either backend, for any
reason — precondition or transport/stream failure), the history buffer is
exactly what it was before the call; the `(query, response)` pair is appended
only on successful completion. -/
theorem error_leaves_history_unchanged :
    (∀ (st : OpenAIState) (m : List Msg) (f : FetchOutcome) (e : GenError),
      (openaiGenerateResponse st m f).result = Except.error e →
      (openaiGenerateResponse st m f).finalState.chatHistory = st.chatHistory) ∧
    (∀ (st : WebLLMState) (m : List Msg) (f : FetchOutcome) (e : GenError),
      (webllmGenerateResponse st m f).result = Except.error e →
      (webllmGenerateResponse st m f).finalState.chatHistory = st.chatHistory) := by
  constructor
  · intro st m f e h
    cases hdoc : st.document with
    | none => simp [openaiGenerateResponse, hdoc]
    | some doc =>
      cases f with
      | httpFail msg => simp [openaiGenerateResponse, hdoc]
      | stream deltas err =>
        cases err with
        | some x => simp [openaiGenerateResponse, hdoc]
        | none => simp [openaiGenerateResponse, hdoc] at h
  · intro st m f e h
    by_cases hinit : (!st.isInitialized || !st.engineLoaded) = true
    · simp [webllmGenerateResponse, hinit]
    · cases hdoc : st.document with
      | none => simp [webllmGenerateResponse, hinit, hdoc]
      | some doc =>
        cases f with
        | httpFail msg => simp [webllmGenerateResponse, hinit, hdoc]
        | stream deltas err =>
          cases err with
          | some x => simp [webllmGenerateResponse, hinit, hdoc]
          | none => simp [webllmGenerateResponse, hinit, hdoc] at h

/-- C9 witness: an OpenAI call failing at the HTTP level leaves the history of
a session with one prior pair untouched. -/
theorem error_leaves_history_unchanged_witness :
    ((openaiGenerateResponse ⟨some exDoc, exHist⟩ [⟨Role.user, "q".toList⟩]
        (FetchOutcome.httpFail "boom".toList)).result =
      Except.error (GenError.transportFail "boom".toList)) ∧
    (openaiGenerateResponse ⟨some exDoc, exHist⟩ [⟨Role.user, "q".toList⟩]
        (FetchOutcome.httpFail "boom".toList)).finalState.chatHistory =
      (⟨some exDoc, exHist⟩ : OpenAIState).chatHistory :=
  ⟨by decide,
    error_leaves_history_unchanged.1 ⟨some exDoc, exHist⟩ [⟨Role.user, "q".toList⟩]
      (FetchOutcome.httpFail "boom".toList) (GenError.transportFail "boom".toList) (by decide)⟩

/-! ### Sanity: `hasSub` is the contiguous-substring relation -/

theorem isPrefOf_iff (a : List Char) :
    ∀ b, isPrefOf a b = true ↔ a <+: b := by
  induction a with
  | nil =>
    intro b
    simp [isPrefOf]
  | cons x as ih =>
    intro b
    cases b with
    | nil => simp [isPrefOf]
    | cons y bs =>
      simp [isPrefOf, List.cons_prefix_cons, ih bs, And.comm]

theorem hasSub_iff (n : List Char) :
    ∀ hay, hasSub n hay = true ↔ n <:+: hay := by
  intro hay
  induction hay with
  | nil =>
    simp [hasSub, List.isEmpty_iff]
  | cons c cs ih =>
    simp [hasSub, List.infix_cons_iff, isPrefOf_iff, ih]
